import Mathlib

/-!
Verification of the BTCSignal data_fetcher module.

This file gives a shallow embedding of the cache + timeframe-aggregation
core of `data_fetcher.py`: the static timeframe table, the OHLCV bucketing
aggregator, the degenerate per-point candle builder, the expiring
file-backed cache, and the string-dispatching facade operations.  Prices
(Python floats, on which the code performs only copies, `max`, `min` and an
exact division by 1000) are embedded as rationals; timestamps in the cache
(Python `time.time()` values) are rationals as well; integer timestamps in
the aggregator are embedded as `Int` with Python's floor division.  Network
fetches, logging and on-disk JSON serialization are outside the core and
appear as abstract parameters.
-/

/-- The static timeframe table `TIMEFRAMES` (label to minutes), in source
order. -/
def TIMEFRAMES : List (String × Nat) :=
  [("1m", 1), ("5m", 5), ("15m", 15), ("30m", 30), ("1h", 60), ("4h", 240),
   ("1d", 1440), ("7d", 10080), ("30d", 43200)]

/-- Cache validity window in minutes (`CACHE_EXPIRY_MINUTES = 5`). -/
def CACHE_EXPIRY_MINUTES : Rat := 5

/-- One aggregated OHLCV bucket, as built by `aggregate_to_timeframe`: the
dict with keys timestamp, open, high, low, close, volume, count. -/
structure Candle where
  timestamp : Int
  open_ : Rat
  high : Rat
  low : Rat
  close : Rat
  volume : Rat
  count : Nat
  deriving DecidableEq

/-- Bucket boundary of a point: `(timestamp // timeframe_seconds) *
timeframe_seconds`, with Python's floor division. -/
def bucketOf (w : Int) (ts : Int) : Int := ts.fdiv w * w

/-- Bucket width in seconds: `timeframe_seconds = timeframe_minutes * 60`. -/
def bucketWidth (m : Nat) : Int := (m : Int) * 60

/-- The accumulator created for the first point of a bucket.  The source
creates it with volume 0 and count 0 and then runs the shared `count += 1`,
so the candle leaves the iteration with count 1. -/
def newCandle (bucket : Int) (price : Rat) : Candle :=
  { timestamp := bucket, open_ := price, high := price, low := price,
    close := price, volume := 0, count := 1 }

/-- The update applied when a further point lands in an existing bucket,
including the shared count increment: high, low and close are updated,
open and volume are not. -/
def updCandle (c : Candle) (price : Rat) : Candle :=
  { c with high := max c.high price, low := min c.low price, close := price,
           count := c.count + 1 }

/-- One iteration of the aggregation loop body.  The insertion-ordered list
of candles models the Python dict `aggregated` (its timestamps are pairwise
distinct, see the loop invariant below, so the membership test and the
pointwise update behave exactly like the dict operations). -/
def addPoint (w : Int) (acc : List Candle) (ts : Int) (price : Rat) : List Candle :=
  let bucket := bucketOf w ts
  if acc.any (fun c => c.timestamp == bucket) then
    acc.map (fun c => if c.timestamp == bucket then updCandle c price else c)
  else
    acc ++ [newCandle bucket price]

/-- The aggregation loop `for timestamp, price in prices`. -/
def processPoints (w : Int) (acc : List Candle) : List (Int × Rat) → List Candle
  | [] => acc
  | p :: ps => processPoints w (addPoint w acc p.1 p.2) ps

/-- Stable insertion by timestamp, modelling the final
`sorted(aggregated.values(), key=lambda x: x["timestamp"])` (Python's sort
is stable; the keys here are pairwise distinct, so every sort agrees). -/
def insertByTs (c : Candle) : List Candle → List Candle
  | [] => [c]
  | d :: ds =>
    if c.timestamp ≤ d.timestamp then c :: d :: ds else d :: insertByTs c ds

/-- Insertion sort of candles by timestamp. -/
def sortByTs : List Candle → List Candle
  | [] => []
  | c :: cs => insertByTs c (sortByTs cs)

/-- `TimeframeDataHandler.aggregate_to_timeframe`: resolve the timeframe
label (unknown labels give the empty list), bucket every point, and emit
the buckets sorted by timestamp. -/
def aggregate_to_timeframe (prices : List (Int × Rat)) (timeframe : String) :
    List Candle :=
  match List.lookup timeframe TIMEFRAMES with
  | none => []
  | some m => sortByTs (processPoints (bucketWidth m) [] prices)

/-- The points of `pts` that fall in the bucket starting at `b`. -/
def bucketPts (w : Int) (b : Int) (pts : List (Int × Rat)) : List (Int × Rat) :=
  pts.filter (fun p => bucketOf w p.1 == b)

/-- The candle obtained by folding the loop update over a bucket's points
(first point `p`, later points `ps`). -/
def candleOf (b : Int) (p : Rat) (ps : List Rat) : Candle :=
  ps.foldl updCandle (newCandle b p)

/-- Loop invariant of the aggregation: every accumulated candle is the fold
of exactly the already-seen points of its bucket, every seen point has a
candle for its bucket, and the candle timestamps are pairwise distinct. -/
def AggInv (w : Int) (seen : List (Int × Rat)) (acc : List Candle) : Prop :=
  (∀ c ∈ acc, ∃ q qs, bucketPts w c.timestamp seen = q :: qs ∧
      c = candleOf c.timestamp q.2 (qs.map Prod.snd)) ∧
  (∀ p ∈ seen, ∃ c ∈ acc, c.timestamp = bucketOf w p.1) ∧
  acc.Pairwise (fun a b => a.timestamp ≠ b.timestamp)

/-- Cache contents: a map from the stored file path (derived from the
hashed key by `_get_cache_path`) to the serialized record of write time and
payload.  Times are rational seconds. -/
structure CacheState (α : Type) where
  store : String → Option (Rat × α)

/-- `DataCache.set`: writes the record of the current time and the payload
at the path derived from the key.  The md5-based path derivation
`_get_cache_path` is the abstract function `hash`. -/
def cache_set {α : Type} (hash : String → String) (s : CacheState α) (now : Rat)
    (k : String) (v : α) : CacheState α :=
  { store := fun p => if p = hash k then some (now, v) else s.store p }

/-- `DataCache.get`: reads the entry at the hashed key's path, returning the
payload only while `(now - timestamp) / 60 < CACHE_EXPIRY_MINUTES`. -/
def cache_get {α : Type} (hash : String → String) (s : CacheState α) (now : Rat)
    (k : String) : Option α :=
  match s.store (hash k) with
  | none => none
  | some tv => if (now - tv.1) / 60 < CACHE_EXPIRY_MINUTES then some tv.2 else none

/-- `DataFetcher.get_bitcoin_price`: dispatch on the source string.  The two
provider calls are the abstract parameters `cg` and `cmc`; an unknown source
is logged and yields the absent result. -/
def get_bitcoin_price {α : Type} (cg cmc : Option α) (source : String) : Option α :=
  if source = "coingecko" then cg
  else if source = "coinmarketcap" then cmc
  else none

/-- `DataFetcher.get_market_data`: the same dispatch shape over the detailed
market-data provider calls. -/
def get_market_data {α : Type} (cg cmc : Option α) (source : String) : Option α :=
  if source = "coingecko" then cg
  else if source = "coinmarketcap" then cmc
  else none

/-- `CoinGeckoFetcher.get_historical_data`, restricted to what it computes
before any network I/O: the clamped day count `days = min(days, 365)` and
the cache key built from the clamped value. -/
def get_historical_data_request (days : Int) : Int × String :=
  let d := min days 365
  (d, "coingecko_historical_" ++ toString d ++ "d")

/-- One OHLCV entry of `_process_historical_to_ohlcv`.  The timestamp field
holds the formatted value of `timestamp / 1000` (the composition of
`datetime.fromtimestamp` and `isoformat` is the abstract parameter `fmt`
applied to the seconds value). -/
structure HistCandle (α : Type) where
  timestamp : α
  open_ : Rat
  high : Rat
  low : Rat
  close : Rat
  volume : Rat
  deriving DecidableEq

/-- Loop body of `_process_historical_to_ohlcv` at index `i`: a degenerate
candle for one point, with the volume read from the index-aligned volumes
list when the index is in range and 0 otherwise. -/
def histEntry {α : Type} (fmt : Rat → α) (volumes : List (Rat × Rat)) (i : Nat)
    (p : Rat × Rat) : HistCandle α :=
  { timestamp := fmt (p.1 / 1000), open_ := p.2, high := p.2, low := p.2,
    close := p.2,
    volume := if h : i < volumes.length then (volumes.get ⟨i, h⟩).2 else 0 }

/-- The `for i, (timestamp, price) in enumerate(prices)` loop, carrying the
running index. -/
def histLoop {α : Type} (fmt : Rat → α) (volumes : List (Rat × Rat)) :
    Nat → List (Rat × Rat) → List (HistCandle α)
  | _, [] => []
  | i, p :: ps => histEntry fmt volumes i p :: histLoop fmt volumes (i + 1) ps

/-- `TimeframeDataHandler._process_historical_to_ohlcv`: one degenerate
candle per input point. -/
def _process_historical_to_ohlcv {α : Type} (fmt : Rat → α)
    (prices volumes : List (Rat × Rat)) : List (HistCandle α) :=
  histLoop fmt volumes 0 prices

/-- `TimeframeDataHandler.get_ohlcv_data`: reject unknown labels, consult
the cache, and fetch-and-convert only for the three day-scale labels; every
other supported label falls through to a logged warning and the absent
result.  The cache read, the historical fetch and the result assembly are
abstract parameters. -/
def get_ohlcv_data {α β : Type} (cached : Option α) (histFetch : Int → Option β)
    (mkResult : String → β → α) (timeframe : String) : Option α :=
  if (List.lookup timeframe TIMEFRAMES).isNone then none
  else
    match cached with
    | some c => some c
    | none =>
      if timeframe ∈ (["1d", "7d", "30d"] : List String) then
        match histFetch
            ((List.lookup timeframe [("1d", (1 : Int)), ("7d", 7), ("30d", 30)]).getD 1) with
        | some d => some (mkResult timeframe d)
        | none => none
      else none

/-- `DataFetcher.get_supported_timeframes`: the keys of the timeframe table
in insertion order. -/
def get_supported_timeframes : List String := TIMEFRAMES.map Prod.fst

/-! ## Theorems -/

theorem aggregate_eq (prices : List (Int × Rat)) (tf : String) (m : Nat)
    (h : List.lookup tf TIMEFRAMES = some m) :
    aggregate_to_timeframe prices tf =
      sortByTs (processPoints (bucketWidth m) [] prices) := by
  simp [aggregate_to_timeframe, h]

theorem aggregate_empty (tf : String) (prices : List (Int × Rat))
    (h : List.lookup tf TIMEFRAMES = none) :
    aggregate_to_timeframe prices tf = [] := by
  simp [aggregate_to_timeframe, h]

/-- Claim C1: aggregating the three sample points at timeframe 1h yields
exactly the two expected candles. -/
theorem aggregate_example_1h :
    aggregate_to_timeframe [((0 : Int), (100 : Rat)), (1800, 110), (3600, 90)] "1h" =
      [{ timestamp := 0, open_ := 100, high := 110, low := 100, close := 110,
         volume := 0, count := 2 },
       { timestamp := 3600, open_ := 90, high := 90, low := 90, close := 90,
         volume := 0, count := 1 }] := by
  decide

/-- Claim C5: an unknown timeframe label yields the empty candle list (not a
fault), and an unknown source string yields the absent price and market
results. -/
theorem invalid_selectors (prices : List (Int × Rat)) (tf source : String)
    {α : Type} (cg cmc : Option α)
    (htf : List.lookup tf TIMEFRAMES = none)
    (h1 : source ≠ "coingecko") (h2 : source ≠ "coinmarketcap") :
    aggregate_to_timeframe prices tf = [] ∧
    get_bitcoin_price cg cmc source = none ∧
    get_market_data cg cmc source = none := by
  refine ⟨aggregate_empty tf prices htf, ?_, ?_⟩ <;>
    simp [get_bitcoin_price, get_market_data, h1, h2]

/-- Witness for the invalid-selector theorem at label "2h" and source
"kraken". -/
theorem invalid_selectors_witness :
    aggregate_to_timeframe [((0 : Int), (1 : Rat))] "2h" = [] ∧
    get_bitcoin_price (some (1 : Nat)) (some 2) "kraken" = none ∧
    get_market_data (some (1 : Nat)) (some 2) "kraken" = none :=
  invalid_selectors [((0 : Int), (1 : Rat))] "2h" "kraken" (some 1) (some 2)
    (by decide) (by decide) (by decide)

/-- Claim C7: a value written at time T is returned by a read at T + d
exactly while d is below the five-minute expiry window, and the read misses
once d reaches the window. -/
theorem cache_expiry_window {α : Type} (hash : String → String) (s : CacheState α)
    (k : String) (v : α) (T d : Rat) :
    cache_get hash (cache_set hash s T k v) (T + d) k =
      if d < CACHE_EXPIRY_MINUTES * 60 then some v else none := by
  have harith : (T + d - T) / 60 < CACHE_EXPIRY_MINUTES ↔
      d < CACHE_EXPIRY_MINUTES * 60 := by
    rw [show T + d - T = d by ring]
    exact div_lt_iff₀ (by norm_num)
  have hsel : (cache_set hash s T k v).store (hash k) = some (T, v) := by
    simp [cache_set]
  by_cases hd : d < CACHE_EXPIRY_MINUTES * 60
  · simp only [cache_get, hsel]
    rw [if_pos (harith.mpr hd), if_pos hd]
  · simp only [cache_get, hsel]
    rw [if_neg (fun hh => hd (harith.mp hh)), if_neg hd]

/-- Claim C8: with the key-to-path hash collision-free (the source uses an
md5 hex digest, deemed collision-resistant on the practical key space),
writing key k1 leaves reads of any other key k2 unchanged. -/
theorem cache_isolation {α : Type} (hash : String → String)
    (hinj : Function.Injective hash) (s : CacheState α) (k1 k2 : String) (v : α)
    (T now : Rat) (hk : k1 ≠ k2) :
    cache_get hash (cache_set hash s T k1 v) now k2 = cache_get hash s now k2 := by
  have hne : hash k2 ≠ hash k1 := fun hh => hk (hinj hh).symm
  simp [cache_get, cache_set, hne]

/-- Witness for cache isolation with the identity hash and two distinct
keys over an empty store. -/
theorem cache_isolation_witness :
    cache_get id (cache_set id ⟨fun _ => none⟩ 0 "k1" (0 : Nat)) 0 "k2" =
      cache_get id (⟨fun _ => none⟩ : CacheState Nat) 0 "k2" :=
  cache_isolation id Function.injective_id ⟨fun _ => none⟩ "k1" "k2" 0 0 0
    (by decide)

/-- Claim C9: the effective day count is the requested value clamped by
`min(days, 365)`: it never exceeds 365, values in 1..365 pass through
unchanged, and the cache key embeds the clamped value. -/
theorem historical_days_clamp (days : Int) :
    (get_historical_data_request days).1 = min days 365 ∧
    (get_historical_data_request days).1 ≤ 365 ∧
    (1 ≤ days ∧ days ≤ 365 → (get_historical_data_request days).1 = days) ∧
    (get_historical_data_request days).2 =
      "coingecko_historical_" ++ toString (get_historical_data_request days).1 ++ "d" := by
  refine ⟨rfl, min_le_right _ _, fun h => ?_, rfl⟩
  show min days 365 = days
  exact min_eq_left h.2

/-- Witness for the day-count clamp at the requests 400 and 30. -/
theorem historical_days_clamp_witness :
    (get_historical_data_request 400).1 = min 400 365 ∧
    (get_historical_data_request 30).1 = 30 :=
  ⟨(historical_days_clamp 400).1, (historical_days_clamp 30).2.2.1 (by decide)⟩

theorem histLoop_length {α : Type} (fmt : Rat → α) (volumes : List (Rat × Rat))
    (prices : List (Rat × Rat)) :
    ∀ i : Nat, (histLoop fmt volumes i prices).length = prices.length := by
  induction prices with
  | nil => intro i; rfl
  | cons q qs ih => intro i; simp [histLoop, ih]

theorem histLoop_get {α : Type} (fmt : Rat → α) (volumes : List (Rat × Rat))
    (prices : List (Rat × Rat)) :
    ∀ (i j : Nat) (p : Rat × Rat), prices[j]? = some p →
      (histLoop fmt volumes i prices)[j]? =
        some (histEntry fmt volumes (i + j) p) := by
  induction prices with
  | nil => intro i j p hp; simp at hp
  | cons q qs ih =>
    intro i j p hp
    cases j with
    | zero =>
      simp only [List.getElem?_cons_zero, Option.some.injEq] at hp
      subst hp
      simp [histLoop]
    | succ j =>
      simp only [List.getElem?_cons_succ] at hp
      have hrec := ih (i + 1) j p hp
      have heq : i + 1 + j = i + (j + 1) := by omega
      rw [heq] at hrec
      simpa [histLoop] using hrec

/-- Claim C6: the per-point candle builder returns one degenerate candle per
input point, in input order, with open, high, low and close all equal to the
point's price, and the volume taken from the index-aligned volumes entry
when it exists and 0 otherwise. -/
theorem process_historical_spec {α : Type} (fmt : Rat → α)
    (prices volumes : List (Rat × Rat)) :
    (_process_historical_to_ohlcv fmt prices volumes).length = prices.length ∧
    ∀ (i : Nat) (p : Rat × Rat), prices[i]? = some p →
      (_process_historical_to_ohlcv fmt prices volumes)[i]? =
        some { timestamp := fmt (p.1 / 1000), open_ := p.2, high := p.2,
               low := p.2, close := p.2,
               volume := if h : i < volumes.length then (volumes.get ⟨i, h⟩).2 else 0 } := by
  constructor
  · exact histLoop_length fmt volumes prices 0
  · intro i p hp
    have hrec := histLoop_get fmt volumes prices 0 i p hp
    simpa [histEntry] using hrec

/-- Witness: a single point (1000, 50000) with no volume series yields the
single degenerate candle with volume 0. -/
theorem process_historical_spec_witness :
    (_process_historical_to_ohlcv (fun t => t) [((1000 : Rat), (50000 : Rat))] [])[0]? =
      some { timestamp := (1000 : Rat) / 1000, open_ := 50000, high := 50000,
             low := 50000, close := 50000, volume := 0 } :=
  (process_historical_spec (fun t => t) [((1000 : Rat), (50000 : Rat))] []).2 0
    ((1000 : Rat), (50000 : Rat)) rfl

/-- Claim C10: with no cached entry, every supported timeframe other than
the three day-scale labels yields the absent result, even though the
supported-timeframe list names all nine labels; only the day-scale labels
can ever produce a present result. -/
theorem ohlcv_day_scale_only {α β : Type} (histFetch : Int → Option β)
    (mkResult : String → β → α) :
    (∀ tf ∈ (["1m", "5m", "15m", "30m", "1h", "4h"] : List String),
        (List.lookup tf TIMEFRAMES).isSome = true ∧
        get_ohlcv_data (none : Option α) histFetch mkResult tf = none) ∧
    get_supported_timeframes =
      ["1m", "5m", "15m", "30m", "1h", "4h", "1d", "7d", "30d"] ∧
    (∀ tf : String, get_ohlcv_data (none : Option α) histFetch mkResult tf ≠ none →
        tf = "1d" ∨ tf = "7d" ∨ tf = "30d") := by
  refine ⟨?_, rfl, ?_⟩
  · intro tf htf
    fin_cases htf <;> exact ⟨rfl, rfl⟩
  · intro tf hne
    by_contra hcon
    push_neg at hcon
    obtain ⟨h1, h7, h30⟩ := hcon
    apply hne
    simp only [get_ohlcv_data]
    simp [h1, h7, h30]

/-- Witness for the day-scale-only behaviour at the label "1h". -/
theorem ohlcv_day_scale_only_witness :
    (List.lookup "1h" TIMEFRAMES).isSome = true ∧
    get_ohlcv_data (none : Option Nat) (fun _ => (none : Option Nat))
      (fun _ _ => 0) "1h" = none :=
  (ohlcv_day_scale_only (fun _ => (none : Option Nat)) (fun _ _ => (0 : Nat))).1
    "1h" (by decide)

/-! ## Aggregation loop invariant -/

theorem foldl_upd_timestamp (ps : List Rat) (c : Candle) :
    (ps.foldl updCandle c).timestamp = c.timestamp := by
  induction ps generalizing c with
  | nil => rfl
  | cons p ps ih => rw [List.foldl_cons, ih]; rfl

theorem foldl_upd_open (ps : List Rat) (c : Candle) :
    (ps.foldl updCandle c).open_ = c.open_ := by
  induction ps generalizing c with
  | nil => rfl
  | cons p ps ih => rw [List.foldl_cons, ih]; rfl

theorem foldl_upd_volume (ps : List Rat) (c : Candle) :
    (ps.foldl updCandle c).volume = c.volume := by
  induction ps generalizing c with
  | nil => rfl
  | cons p ps ih => rw [List.foldl_cons, ih]; rfl

theorem foldl_upd_count (ps : List Rat) (c : Candle) :
    (ps.foldl updCandle c).count = c.count + ps.length := by
  induction ps generalizing c with
  | nil => rfl
  | cons p ps ih =>
    rw [List.foldl_cons, ih]
    show c.count + 1 + ps.length = c.count + (ps.length + 1)
    omega

theorem foldl_upd_close (ps : List Rat) (c : Candle) :
    (ps.foldl updCandle c).close = ps.getLastD c.close := by
  induction ps generalizing c with
  | nil => rfl
  | cons p ps ih => rw [List.foldl_cons, ih, List.getLastD_cons]; rfl

theorem foldl_upd_high (ps : List Rat) (c : Candle) :
    (ps.foldl updCandle c).high = ps.foldl max c.high := by
  induction ps generalizing c with
  | nil => rfl
  | cons p ps ih => rw [List.foldl_cons, ih, List.foldl_cons]; rfl

theorem foldl_upd_low (ps : List Rat) (c : Candle) :
    (ps.foldl updCandle c).low = ps.foldl min c.low := by
  induction ps generalizing c with
  | nil => rfl
  | cons p ps ih => rw [List.foldl_cons, ih, List.foldl_cons]; rfl

theorem candleOf_fields (b : Int) (p : Rat) (ps : List Rat) :
    (candleOf b p ps).timestamp = b ∧
    (candleOf b p ps).open_ = p ∧
    (candleOf b p ps).close = ps.getLastD p ∧
    (candleOf b p ps).high = ps.foldl max p ∧
    (candleOf b p ps).low = ps.foldl min p ∧
    (candleOf b p ps).volume = 0 ∧
    (candleOf b p ps).count = ps.length + 1 := by
  refine ⟨foldl_upd_timestamp ps (newCandle b p), foldl_upd_open ps (newCandle b p),
    foldl_upd_close ps (newCandle b p), foldl_upd_high ps (newCandle b p),
    foldl_upd_low ps (newCandle b p), foldl_upd_volume ps (newCandle b p), ?_⟩
  show (ps.foldl updCandle (newCandle b p)).count = ps.length + 1
  rw [foldl_upd_count]
  show 1 + ps.length = ps.length + 1
  omega

theorem updIf_timestamp (b : Int) (pr : Rat) (c : Candle) :
    (if c.timestamp == b then updCandle c pr else c).timestamp = c.timestamp := by
  split <;> rfl

theorem mem_bucketPts (w b : Int) (pts : List (Int × Rat)) (q : Int × Rat) :
    q ∈ bucketPts w b pts ↔ q ∈ pts ∧ bucketOf w q.1 = b := by
  simp [bucketPts, List.mem_filter]

theorem bucketPts_append (w b ts : Int) (pr : Rat) (seen : List (Int × Rat)) :
    bucketPts w b (seen ++ [(ts, pr)]) =
      bucketPts w b seen ++ (if bucketOf w ts = b then [(ts, pr)] else []) := by
  by_cases hbe : bucketOf w ts = b
  · simp [bucketPts, List.filter_append, hbe]
  · simp [bucketPts, List.filter_append, hbe]

theorem addPoint_inv (w : Int) (seen : List (Int × Rat)) (acc : List Candle)
    (ts : Int) (pr : Rat) (h : AggInv w seen acc) :
    AggInv w (seen ++ [(ts, pr)]) (addPoint w acc ts pr) := by
  obtain ⟨hchar, hcov, hnd⟩ := h
  by_cases hmem : ∃ c ∈ acc, c.timestamp = bucketOf w ts
  · -- the bucket already has a candle: pointwise update
    have hany : acc.any (fun c => c.timestamp == bucketOf w ts) = true := by
      rcases hmem with ⟨c0, hc0, hts0⟩
      exact List.any_eq_true.mpr ⟨c0, hc0, by simpa using hts0⟩
    have hstep : addPoint w acc ts pr =
        acc.map (fun c => if c.timestamp == bucketOf w ts then updCandle c pr else c) := by
      simp [addPoint, hany]
    rw [hstep]
    refine ⟨?_, ?_, ?_⟩
    · intro c' hc'
      rcases List.mem_map.mp hc' with ⟨c, hc, hfc⟩
      by_cases hcb : c.timestamp = bucketOf w ts
      · -- the updated candle
        rcases hchar c hc with ⟨q, qs, hfilt, hcand⟩
        have hc'eq : c' = updCandle c pr := by
          rw [← hfc]; simp [hcb]
        have hts' : c'.timestamp = c.timestamp := by rw [hc'eq]; rfl
        refine ⟨q, qs ++ [(ts, pr)], ?_, ?_⟩
        · rw [hts', bucketPts_append, hfilt, if_pos hcb.symm]
          rfl
        · rw [hc'eq]
          have htseq : (updCandle c pr).timestamp = c.timestamp := rfl
          rw [htseq]
          have hrhs : candleOf c.timestamp q.2 ((qs ++ [(ts, pr)]).map Prod.snd) =
              updCandle (candleOf c.timestamp q.2 (qs.map Prod.snd)) pr := by
            simp [candleOf, List.map_append, List.foldl_append]
          rw [hrhs, ← hcand]
      · -- an untouched candle
        have hc'eq : c' = c := by
          rw [← hfc]; simp [hcb]
        rcases hchar c hc with ⟨q, qs, hfilt, hcand⟩
        have hne : bucketOf w ts ≠ c.timestamp := fun hh => hcb hh.symm
        refine ⟨q, qs, ?_, ?_⟩
        · rw [hc'eq, bucketPts_append, if_neg hne, List.append_nil]
          exact hfilt
        · rw [hc'eq]; exact hcand
    · intro p hp
      rcases List.mem_append.mp hp with hp | hp
      · rcases hcov p hp with ⟨c, hc, hts'⟩
        exact ⟨_, List.mem_map_of_mem _ hc, by rw [updIf_timestamp]; exact hts'⟩
      · have hp' : p = (ts, pr) := by simpa using hp
        rcases hmem with ⟨c0, hc0, hts0⟩
        refine ⟨_, List.mem_map_of_mem
          (fun c => if c.timestamp == bucketOf w ts then updCandle c pr else c) hc0, ?_⟩
        rw [updIf_timestamp, hts0, hp']
    · refine List.pairwise_map.mpr (hnd.imp ?_)
      intro a b hab
      rw [updIf_timestamp, updIf_timestamp]
      exact hab
  · -- a fresh bucket: append a new candle
    have hany : acc.any (fun c => c.timestamp == bucketOf w ts) = false := by
      have : ¬ acc.any (fun c => c.timestamp == bucketOf w ts) = true := by
        rw [List.any_eq_true]
        rintro ⟨c, hc, hcb⟩
        exact hmem ⟨c, hc, by simpa using hcb⟩
      simpa using this
    have hstep : addPoint w acc ts pr = acc ++ [newCandle (bucketOf w ts) pr] := by
      simp [addPoint, hany]
    rw [hstep]
    have hempty : bucketPts w (bucketOf w ts) seen = [] := by
      rw [bucketPts, List.filter_eq_nil_iff]
      intro p hp
      simp only [beq_iff_eq]
      intro hh
      rcases hcov p hp with ⟨c, hc, hts'⟩
      exact hmem ⟨c, hc, by rw [hts', hh]⟩
    refine ⟨?_, ?_, ?_⟩
    · intro c' hc'
      rcases List.mem_append.mp hc' with hc' | hc'
      · have hne : bucketOf w ts ≠ c'.timestamp := fun hh => hmem ⟨c', hc', hh.symm⟩
        rcases hchar c' hc' with ⟨q, qs, hfilt, hcand⟩
        refine ⟨q, qs, ?_, hcand⟩
        rw [bucketPts_append, if_neg hne, List.append_nil]
        exact hfilt
      · have hc'eq : c' = newCandle (bucketOf w ts) pr := by simpa using hc'
        refine ⟨(ts, pr), [], ?_, ?_⟩
        · rw [hc'eq]
          show bucketPts w (bucketOf w ts) (seen ++ [(ts, pr)]) = [(ts, pr)]
          rw [bucketPts_append, hempty, if_pos rfl]
          rfl
        · rw [hc'eq]; rfl
    · intro p hp
      rcases List.mem_append.mp hp with hp | hp
      · rcases hcov p hp with ⟨c, hc, hts'⟩
        exact ⟨c, List.mem_append_left _ hc, hts'⟩
      · have hp' : p = (ts, pr) := by simpa using hp
        refine ⟨newCandle (bucketOf w ts) pr, List.mem_append_right _ (by simp), ?_⟩
        rw [hp']
        rfl
    · rw [List.pairwise_append]
      refine ⟨hnd, List.pairwise_singleton _ _, ?_⟩
      intro c hc x hx
      have hx' : x = newCandle (bucketOf w ts) pr := by simpa using hx
      rw [hx']
      intro hh
      exact hmem ⟨c, hc, hh⟩

theorem processPoints_inv (w : Int) (ps : List (Int × Rat)) :
    ∀ seen acc, AggInv w seen acc → AggInv w (seen ++ ps) (processPoints w acc ps) := by
  induction ps with
  | nil => intro seen acc h; simpa using h
  | cons p ps ih =>
    intro seen acc h
    have h1 := addPoint_inv w seen acc p.1 p.2 h
    have h2 := ih (seen ++ [(p.1, p.2)]) (addPoint w acc p.1 p.2) h1
    have heq : seen ++ [(p.1, p.2)] ++ ps = seen ++ p :: ps := by simp
    rw [heq] at h2
    exact h2

theorem aggregate_inv (w : Int) (prices : List (Int × Rat)) :
    AggInv w prices (processPoints w [] prices) := by
  have hstart : AggInv w [] [] :=
    ⟨fun c hc => absurd hc (List.not_mem_nil c),
     fun p hp => absurd hp (List.not_mem_nil p), List.Pairwise.nil⟩
  simpa using processPoints_inv w prices [] [] hstart

/-! ## Sorting lemmas -/

theorem mem_insertByTs (x c : Candle) (l : List Candle) :
    x ∈ insertByTs c l ↔ x = c ∨ x ∈ l := by
  induction l with
  | nil => simp [insertByTs]
  | cons d ds ih =>
    by_cases h : c.timestamp ≤ d.timestamp
    · simp [insertByTs, h]
    · simp only [insertByTs, if_neg h, List.mem_cons, ih]
      tauto

theorem pairwise_insertByTs (c : Candle) (l : List Candle)
    (h : l.Pairwise (fun a b => a.timestamp ≤ b.timestamp)) :
    (insertByTs c l).Pairwise (fun a b => a.timestamp ≤ b.timestamp) := by
  induction l with
  | nil => simp [insertByTs]
  | cons d ds ih =>
    rcases List.pairwise_cons.mp h with ⟨hd, hds⟩
    by_cases hcd : c.timestamp ≤ d.timestamp
    · simp only [insertByTs, if_pos hcd]
      refine List.pairwise_cons.mpr ⟨?_, h⟩
      intro x hx
      rcases List.mem_cons.mp hx with hx | hx
      · rw [hx]; exact hcd
      · exact le_trans hcd (hd x hx)
    · simp only [insertByTs, if_neg hcd]
      refine List.pairwise_cons.mpr ⟨?_, ih hds⟩
      intro x hx
      rcases (mem_insertByTs x c ds).mp hx with hx | hx
      · rw [hx]; exact le_of_lt (not_le.mp hcd)
      · exact hd x hx

theorem sortByTs_sorted (l : List Candle) :
    (sortByTs l).Pairwise (fun a b => a.timestamp ≤ b.timestamp) := by
  induction l with
  | nil => exact List.Pairwise.nil
  | cons c cs ih => exact pairwise_insertByTs c _ ih

theorem insertByTs_perm (c : Candle) (l : List Candle) :
    List.Perm (insertByTs c l) (c :: l) := by
  induction l with
  | nil => exact List.Perm.refl _
  | cons d ds ih =>
    by_cases h : c.timestamp ≤ d.timestamp
    · simp only [insertByTs, if_pos h]
      exact List.Perm.refl _
    · simp only [insertByTs, if_neg h]
      exact (List.Perm.cons d ih).trans (List.Perm.swap c d ds)

theorem sortByTs_perm (l : List Candle) : List.Perm (sortByTs l) l := by
  induction l with
  | nil => exact List.Perm.refl _
  | cons c cs ih => exact (insertByTs_perm c (sortByTs cs)).trans (List.Perm.cons c ih)

/-! ## The aggregation claims -/

/-- Claim C2: for every input sequence and valid timeframe label, each point
lands in the floor-aligned bucket, and every emitted candle carries the
first point's price as open, the most recently processed point's price as
close, the maximum as high, the minimum as low, and the number of the
bucket's points as count. -/
theorem aggregate_spec (prices : List (Int × Rat)) (tf : String) (m : Nat)
    (h : List.lookup tf TIMEFRAMES = some m) :
    (∀ p ∈ prices, ∃ c ∈ aggregate_to_timeframe prices tf,
        c.timestamp = bucketOf (bucketWidth m) p.1) ∧
    (∀ c ∈ aggregate_to_timeframe prices tf,
        ∃ q qs, bucketPts (bucketWidth m) c.timestamp prices = q :: qs ∧
          c.open_ = q.2 ∧
          c.close = (qs.map Prod.snd).getLastD q.2 ∧
          c.high = (qs.map Prod.snd).foldl max q.2 ∧
          c.low = (qs.map Prod.snd).foldl min q.2 ∧
          c.count = qs.length + 1) := by
  obtain ⟨hchar, hcov, hnd⟩ := aggregate_inv (bucketWidth m) prices
  rw [aggregate_eq prices tf m h]
  constructor
  · intro p hp
    rcases hcov p hp with ⟨c, hc, hts⟩
    exact ⟨c, (sortByTs_perm _).mem_iff.mpr hc, hts⟩
  · intro c hc
    rcases hchar c ((sortByTs_perm _).mem_iff.mp hc) with ⟨q, qs, hfilt, hcand⟩
    rcases candleOf_fields c.timestamp q.2 (qs.map Prod.snd) with
      ⟨_, ho, hcl, hh, hl, _, hcnt⟩
    refine ⟨q, qs, hfilt, ?_, ?_, ?_, ?_, ?_⟩
    · exact (congrArg Candle.open_ hcand).trans ho
    · exact (congrArg Candle.close hcand).trans hcl
    · exact (congrArg Candle.high hcand).trans hh
    · exact (congrArg Candle.low hcand).trans hl
    · rw [congrArg Candle.count hcand, hcnt, List.length_map]

/-- Witness for the aggregation field specification at a one-point input. -/
theorem aggregate_spec_witness :
    ∃ c ∈ aggregate_to_timeframe [((0 : Int), (100 : Rat))] "1h",
      c.timestamp = bucketOf (bucketWidth 60) 0 :=
  (aggregate_spec [((0 : Int), (100 : Rat))] "1h" 60 (by decide)).1
    ((0 : Int), (100 : Rat)) (by decide)

/-- Claim C3: for every input order the output candles are strictly
ascending in bucket start, and the candle buckets are exactly the buckets of
the input points, one candle per distinct bucket. -/
theorem aggregate_sorted (prices : List (Int × Rat)) (tf : String) (m : Nat)
    (h : List.lookup tf TIMEFRAMES = some m) :
    List.Pairwise (fun a b : Candle => a.timestamp < b.timestamp)
      (aggregate_to_timeframe prices tf) ∧
    ∀ b : Int,
      (∃ c ∈ aggregate_to_timeframe prices tf, c.timestamp = b) ↔
      (∃ p ∈ prices, bucketOf (bucketWidth m) p.1 = b) := by
  obtain ⟨hchar, hcov, hnd⟩ := aggregate_inv (bucketWidth m) prices
  rw [aggregate_eq prices tf m h]
  constructor
  · have hsorted := sortByTs_sorted (processPoints (bucketWidth m) [] prices)
    have hne : (sortByTs (processPoints (bucketWidth m) [] prices)).Pairwise
        (fun a b => a.timestamp ≠ b.timestamp) :=
      ((sortByTs_perm _).pairwise_iff (fun hab => Ne.symm hab)).mpr hnd
    exact (hsorted.and hne).imp (fun hab => lt_of_le_of_ne hab.1 hab.2)
  · intro b
    constructor
    · rintro ⟨c, hc, rfl⟩
      rcases hchar c ((sortByTs_perm _).mem_iff.mp hc) with ⟨q, qs, hfilt, _⟩
      have hq : q ∈ bucketPts (bucketWidth m) c.timestamp prices := by
        rw [hfilt]; exact List.mem_cons_self q qs
      rcases (mem_bucketPts _ _ _ _).mp hq with ⟨hqp, hqb⟩
      exact ⟨q, hqp, hqb⟩
    · rintro ⟨p, hp, rfl⟩
      rcases hcov p hp with ⟨c, hc, hts⟩
      exact ⟨c, (sortByTs_perm _).mem_iff.mpr hc, hts⟩

/-- Witness for the ordering theorem on out-of-order input at timeframe
1h. -/
theorem aggregate_sorted_witness :
    List.Pairwise (fun a b : Candle => a.timestamp < b.timestamp)
      (aggregate_to_timeframe [((3600 : Int), (1 : Rat)), (0, 2)] "1h") :=
  (aggregate_sorted [((3600 : Int), (1 : Rat)), (0, 2)] "1h" 60 (by decide)).1

/-- Claim C4: every candle emitted by the aggregation has volume 0; the
per-point update never touches the volume field. -/
theorem aggregate_volume_zero (prices : List (Int × Rat)) (tf : String)
    (c : Candle) (hc : c ∈ aggregate_to_timeframe prices tf) : c.volume = 0 := by
  cases hmk : List.lookup tf TIMEFRAMES with
  | none =>
    rw [aggregate_empty tf prices hmk] at hc
    exact absurd hc (List.not_mem_nil c)
  | some m =>
    obtain ⟨hchar, _, _⟩ := aggregate_inv (bucketWidth m) prices
    rw [aggregate_eq prices tf m hmk] at hc
    rcases hchar c ((sortByTs_perm _).mem_iff.mp hc) with ⟨q, qs, _, hcand⟩
    rw [congrArg Candle.volume hcand]
    exact (candleOf_fields _ _ _).2.2.2.2.2.1

/-- Witness for the zero-volume theorem at a two-point bucket. -/
theorem aggregate_volume_zero_witness :
    ({ timestamp := 0, open_ := 5, high := 7, low := 5, close := 7,
       volume := 0, count := 2 } : Candle).volume = 0 :=
  aggregate_volume_zero [((0 : Int), (5 : Rat)), (10, 7)] "1m"
    { timestamp := 0, open_ := 5, high := 7, low := 5, close := 7,
      volume := 0, count := 2 } (by decide)
